import Mathlib

/-!
Verification of the label codec, multi-bucket decoder, confidence annotator
and metrics engine of `train_neural_network.py`.

Floats are modelled as rationals (`ℚ`); Python strings as `String` (or
`List Char` where character-level slicing matters); fallible operations
(`KeyError` on a dict lookup, `assert`, `ValueError` from `np.vstack` on an
empty list, `max` of an empty sequence) return `Except`/`Option`.
-/

set_option autoImplicit false

/-- The multi-label inclusion threshold, `PROB_THRESHOLD = 0.20`. -/
def PROB_THRESHOLD : ℚ := 0.20

/-- The confidence threshold used by `calculatePredictionConfidence`. -/
def CONFIDENCE_THRESHOLD : ℚ := 0.65

/-- The fixed ordered label/index association list `ENC_LIST`. -/
def ENC_LIST : List (String × ℕ) :=
  [("others", 0), ("description", 1), ("skills", 2), ("job_title", 3), ("education", 4)]

/-- The fixed set of class labels, in ClassIndex order (the keys of `ENC_LIST`). -/
def ENC_LABELS : List String := ENC_LIST.map Prod.fst

/-- Lookup of `dict(ENC_LIST)`: label to ClassIndex; `none` models `KeyError`. -/
def encDict (y : String) : Option ℕ := ENC_LIST.lookup y

/-- Lookup of `dict([(i[1],i[0]) for i in ENC_LIST])`: ClassIndex to label. -/
def encDictInv (i : ℕ) : Option String :=
  (ENC_LIST.map (fun p => (p.2, p.1))).lookup i

/-- Python `max` over a sequence of rationals; `none` on the empty sequence
(`ValueError` in Python). -/
def listMax : List ℚ → Option ℚ
  | [] => none
  | h :: t => some (t.foldl max h)

/-- First index at which `m` occurs in a list (0 past the end). -/
def firstIdxOf (m : ℚ) : List ℚ → ℕ
  | [] => 0
  | a :: t => if a = m then 0 else firstIdxOf m t + 1

/-- `np.argmax` over one row: index of the first occurrence of the maximum;
`none` on an empty row. -/
def argmaxIdx (l : List ℚ) : Option ℕ := (listMax l).map (fun m => firstIdxOf m l)

/-- Decoder `onehot2str`: per row, `np.argmax` then `enc_dict[i]` lookup. -/
def onehot2str : List (List ℚ) → Option (List String)
  | [] => some []
  | row :: rest =>
    match argmaxIdx row with
    | none => none
    | some i =>
      match encDictInv i with
      | none => none
      | some lab =>
        match onehot2str rest with
        | none => none
        | some labs => some (lab :: labs)

/-- Errors of the encoder: `KeyError` on an unknown label (what the spec calls
`UnknownLabelError`), and the `ValueError` that `np.vstack` raises on an empty
list of rows. -/
inductive CodecError where
  | unknownLabel : CodecError
  | emptyVstack : CodecError
deriving DecidableEq

/-- The row `np.zeros((1, len(ENC_LIST)))` with entry `i` set to `1.`. -/
def oneHotVec (i : ℕ) : List ℚ := (List.replicate ENC_LIST.length (0 : ℚ)).set i 1

/-- The per-label loop of `str2onehot`: one one-hot row per input label,
failing on the first label missing from `enc_dict`. -/
def str2onehotRows : List String → Except CodecError (List (List ℚ))
  | [] => .ok []
  | y :: rest =>
    match encDict y with
    | none => .error .unknownLabel
    | some i =>
      match str2onehotRows rest with
      | .error e => .error e
      | .ok rs => .ok (oneHotVec i :: rs)

/-- Encoder `str2onehot`: builds the rows then `np.vstack`s them; `np.vstack`
of an empty list raises, modelled by `emptyVstack`. -/
def str2onehot (Y : List String) : Except CodecError (List (List ℚ)) :=
  match str2onehotRows Y with
  | .error e => .error e
  | .ok [] => .error .emptyVstack
  | .ok rows => .ok rows

/-- Composition `decode(encode([L]))` of the two codec directions. -/
def decodeEncode (L : String) : Option (List String) :=
  match str2onehot [L] with
  | .ok M => onehot2str M
  | .error _ => none

/-- `calculatePredictionConfidence`: per prediction row, compare Python
`max(probs)` against the threshold 0.65 and record the string "YES" or "NO". -/
def calculatePredictionConfidence : List (List ℚ) → Option (List String)
  | [] => some []
  | probs :: rest =>
    match listMax probs with
    | none => none
    | some m =>
      match calculatePredictionConfidence rest with
      | none => none
      | some cs => some ((if CONFIDENCE_THRESHOLD < m then "YES" else "NO") :: cs)

/-- The inner loop of `prob2str_multibucket` on one row, starting at index
`idx`: append `enc_dict[idx] + ", "` for every probability at or above
`PROB_THRESHOLD`; `none` models the `KeyError` on an index outside the dict.
The Python string is modelled character-by-character as `List Char`. -/
def buildClasses : ℕ → List ℚ → Option (List Char)
  | _, [] => some []
  | idx, p :: rest =>
    if PROB_THRESHOLD ≤ p then
      match encDictInv idx with
      | none => none
      | some lab =>
        match buildClasses (idx + 1) rest with
        | none => none
        | some r => some (lab.data ++ ',' :: ' ' :: r)
    else buildClasses (idx + 1) rest

/-- `prob2str_multibucket`: zips the rows with the sentences (truncating at the
shorter), builds the per-row class string and strips the trailing two
characters (`classes[:-2]`). -/
def prob2str_multibucket : List (List ℚ) → List String → Option (List (List Char) × List String)
  | p :: ps, s :: ss =>
    match buildClasses 0 p with
    | none => none
    | some cl =>
      match prob2str_multibucket ps ss with
      | none => none
      | some (cs, fs) => some (cl.dropLast.dropLast :: cs, s :: fs)
  | _, _ => some ([], [])

/-- Comma-separated join with no trailing separator (the spec's description of
the multi-bucket output format). -/
def joinCommaSep : List (List Char) → List Char
  | [] => []
  | [a] => a
  | a :: rest => a ++ ',' :: ' ' :: joinCommaSep rest

/-- The labels of a row whose probability is at or above `PROB_THRESHOLD`, in
fixed ClassIndex order (the spec's description of the selected label set). -/
def selectedLabels (row : List ℚ) : List (List Char) :=
  ((ENC_LABELS.zip row).filter (fun p => PROB_THRESHOLD ≤ p.2)).map (fun p => p.1.data)

/-- Error of the metrics engine: the `assert len(Y_pred) == len(Y_true)` (what
the spec calls `LengthMismatchError`). -/
inductive MetricsError where
  | lengthMismatch : MetricsError
deriving DecidableEq

/-- Per-class precision/recall/F1 triple (the source's per-class dict with
keys 'precision', 'recall', 'f1'; the second is named `recallScore` here only
because `recall` is a reserved word). -/
structure PRF where
  precision : ℚ
  recallScore : ℚ
  f1 : ℚ
deriving DecidableEq

/-- Number of occurrences of the label `c` in a sequence. -/
def countLabel (l : List String) (c : String) : ℕ := l.countP (fun y => decide (y = c))

/-- True positives for class `c`: positions where both truth and prediction
are `c`. -/
def truePos (Y_pred Y_true : List String) (c : String) : ℕ :=
  (Y_true.zip Y_pred).countP (fun p => decide (p.1 = c ∧ p.2 = c))

/-- sklearn `precision_score` for one class, `zero_division` yielding 0. -/
def classPrecision (Y_pred Y_true : List String) (c : String) : ℚ :=
  if countLabel Y_pred c = 0 then 0
  else (truePos Y_pred Y_true c : ℚ) / (countLabel Y_pred c : ℚ)

/-- sklearn `recall_score` for one class, `zero_division` yielding 0. -/
def classRecall (Y_pred Y_true : List String) (c : String) : ℚ :=
  if countLabel Y_true c = 0 then 0
  else (truePos Y_pred Y_true c : ℚ) / (countLabel Y_true c : ℚ)

/-- sklearn `f1_score` for one class (`2TP/(2TP+FP+FN)`), `zero_division`
yielding 0; the denominator equals predicted-positives plus actual-positives. -/
def classF1 (Y_pred Y_true : List String) (c : String) : ℚ :=
  if countLabel Y_pred c + countLabel Y_true c = 0 then 0
  else 2 * (truePos Y_pred Y_true c : ℚ) /
    ((countLabel Y_pred c : ℚ) + (countLabel Y_true c : ℚ))

/-- `precision_recall_f1`: per-class scores for every class of `classlist`. -/
def precision_recall_f1 (Y_pred Y_true : List String) (classlist : List String) :
    List (String × PRF) :=
  classlist.map (fun c =>
    (c, { precision := classPrecision Y_pred Y_true c
          recallScore := classRecall Y_pred Y_true c
          f1 := classF1 Y_pred Y_true c }))

/-- The nine aggregate scores produced by the function `micro_macro_weighted`
of the source. -/
structure AggregateScores where
  precisionMicro : ℚ
  precisionMacro : ℚ
  precisionWeighted : ℚ
  recallMicro : ℚ
  recallMacro : ℚ
  recallWeighted : ℚ
  f1Micro : ℚ
  f1Macro : ℚ
  f1Weighted : ℚ

/-- Embedding of `micro_macro_weighted` (sklearn scores with
`average='micro'/'macro'/'weighted'`). sklearn pools over the distinct labels
present in either sequence; their sorted order is immaterial to all three
averages, so the deduplicated occurrence order is used here. -/
def aggregateScores (Y_pred Y_true : List String) : AggregateScores :=
  let L := (Y_true ++ Y_pred).dedup
  let sumTP : ℚ := ((L.map (truePos Y_pred Y_true)).sum : ℕ)
  let sumPred : ℚ := ((L.map (countLabel Y_pred)).sum : ℕ)
  let sumTrue : ℚ := ((L.map (countLabel Y_true)).sum : ℕ)
  let n : ℚ := (L.length : ℕ)
  let total : ℚ := (Y_true.length : ℕ)
  { precisionMicro := if sumPred = 0 then 0 else sumTP / sumPred
    precisionMacro := (L.map (classPrecision Y_pred Y_true)).sum / n
    precisionWeighted :=
      (L.map (fun c => (countLabel Y_true c : ℚ) * classPrecision Y_pred Y_true c)).sum / total
    recallMicro := if sumTrue = 0 then 0 else sumTP / sumTrue
    recallMacro := (L.map (classRecall Y_pred Y_true)).sum / n
    recallWeighted :=
      (L.map (fun c => (countLabel Y_true c : ℚ) * classRecall Y_pred Y_true c)).sum / total
    f1Micro := if sumPred + sumTrue = 0 then 0 else 2 * sumTP / (sumPred + sumTrue)
    f1Macro := (L.map (classF1 Y_pred Y_true)).sum / n
    f1Weighted :=
      (L.map (fun c => (countLabel Y_true c : ℚ) * classF1 Y_pred Y_true c)).sum / total }

/-- sklearn `confusion_matrix`: entry `(i, j)` counts examples with true class
`classlist[i]` and predicted class `classlist[j]`. -/
def confusionMatrix (Y_true Y_pred : List String) (classlist : List String) :
    List (List ℕ) :=
  classlist.map (fun ci => classlist.map (fun cj =>
    (Y_true.zip Y_pred).countP (fun p => decide (p.1 = ci ∧ p.2 = cj))))

/-- `accuracy_score(Y_true, Y_pred, normalize=False)`: the number of positions
where truth and prediction coincide. -/
def countMatches (Y_true Y_pred : List String) : ℕ :=
  (Y_true.zip Y_pred).countP (fun p => decide (p.1 = p.2))

/-- The data computed by `calculatePerformanceMetrics` (its logging side
channel is the caller's concern and not modelled). -/
structure MetricsReport where
  num_incorrect : ℕ
  accuracy : ℚ
  metrics : List (String × PRF)
  aggregates : AggregateScores
  cf_matrix : List (List ℕ)

/-- The fixed class ordering `classlist` of `calculatePerformanceMetrics`. -/
def CLASSLIST : List String := ["description", "job_title", "education", "others", "skills"]

/-- `calculatePerformanceMetrics`: asserts equal lengths, then computes the
incorrect count, accuracy, per-class scores, aggregates and confusion matrix. -/
def calculatePerformanceMetrics (Y_pred Y_true : List String) :
    Except MetricsError MetricsReport :=
  if Y_pred.length = Y_true.length then
    .ok
      { num_incorrect := Y_true.length - countMatches Y_true Y_pred
        accuracy := (countMatches Y_true Y_pred : ℚ) / (Y_true.length : ℚ)
        metrics := precision_recall_f1 Y_pred Y_true CLASSLIST
        aggregates := aggregateScores Y_pred Y_true
        cf_matrix := confusionMatrix Y_true Y_pred CLASSLIST }
  else .error .lengthMismatch

/-! ### Helper lemmas for the label codec -/

/-- A ClassIndex produced by `encDict` is below 5. -/
theorem encDict_lt_five (L : String) (i : ℕ) (h : encDict L = some i) : i < 5 := by
  simp only [encDict, ENC_LIST, List.lookup] at h
  repeat' split at h
  all_goals (try simp_all)
  all_goals omega

/-- `encDict` succeeds exactly on the five configured labels. -/
theorem encDict_isSome_iff (y : String) : (encDict y).isSome ↔ y ∈ ENC_LABELS := by
  simp only [encDict, ENC_LIST, ENC_LABELS, List.lookup, List.map, List.mem_cons]
  repeat' split
  all_goals simp_all

/-- The per-label loop succeeds exactly when every label is in the dict, and
then produces one row per label. -/
theorem str2onehotRows_ok (Y : List String) (hall : ∀ y ∈ Y, (encDict y).isSome) :
    ∃ rs, str2onehotRows Y = .ok rs ∧ rs.length = Y.length := by
  induction Y with
  | nil => exact ⟨[], rfl, rfl⟩
  | cons y rest ih =>
    have h1 : (encDict y).isSome := hall y (List.mem_cons_self y rest)
    obtain ⟨i, hi⟩ := Option.isSome_iff_exists.mp h1
    obtain ⟨rs, hrs, hlen⟩ := ih (fun z hz => hall z (List.mem_cons_of_mem y hz))
    exact ⟨oneHotVec i :: rs, by simp [str2onehotRows, hi, hrs], by simp [hlen]⟩

/-- If some label is missing from the dict, the loop stops with the
unknown-label error. -/
theorem str2onehotRows_error (Y : List String) (y : String) (hy : y ∈ Y)
    (hnone : encDict y = none) :
    str2onehotRows Y = .error CodecError.unknownLabel := by
  induction Y with
  | nil => cases hy
  | cons z rest ih =>
    rcases List.mem_cons.mp hy with h1 | h1
    · subst h1
      simp [str2onehotRows, hnone]
    · simp only [str2onehotRows]
      cases hz : encDict z with
      | none => rfl
      | some i => rw [ih h1]

/-! ### Claim theorems for the label codec -/

/-- C1: for every ClassLabel in the fixed 5-element set, decoding the one-hot
encoding of the singleton list yields the label back. -/
theorem C1_round_trip (L : String) (hL : L ∈ ENC_LABELS) :
    decodeEncode L = some [L] := by
  fin_cases hL <;> rfl

/-- Witness for C1 at the label "others". -/
theorem C1_round_trip_witness :
    "others" ∈ ENC_LABELS ∧ decodeEncode "others" = some ["others"] :=
  ⟨by decide, C1_round_trip "others" (by decide)⟩

/-- C5 counterexample: on the empty input (all of whose members are vacuously
inside the configured label set) `str2onehot` fails — and not with the
unknown-label error, but with the `ValueError` that `np.vstack` raises on an
empty list. -/
theorem C5_counterexample :
    (str2onehot ([] : List String)).toOption = none ∧
      str2onehot ([] : List String) ≠ .error CodecError.unknownLabel := by
  refine ⟨rfl, ?_⟩
  intro h
  simp only [str2onehot, str2onehotRows] at h
  exact CodecError.noConfusion (Except.error.inj h)

/-- C5 amended: `str2onehot` fails with the unknown-label error iff some input
label is outside the fixed configured set, and on a nonempty input whose labels
all belong to the set it succeeds (the empty input instead fails in the final
`np.vstack` step). -/
theorem C5_unknown_label (Y : List String) :
    (str2onehot Y = .error CodecError.unknownLabel ↔ ∃ y ∈ Y, y ∉ ENC_LABELS) ∧
      (Y ≠ [] → (∀ y ∈ Y, y ∈ ENC_LABELS) → ∃ M, str2onehot Y = .ok M) := by
  constructor
  · constructor
    · intro h
      by_contra hex
      push_neg at hex
      obtain ⟨rs, hrs, _⟩ := str2onehotRows_ok Y
        (fun y hy => (encDict_isSome_iff y).mpr (hex y hy))
      simp only [str2onehot, hrs] at h
      cases rs <;> simp at h
    · intro hex
      obtain ⟨y, hy, hout⟩ := hex
      have hnone : encDict y = none := by
        by_contra hsome
        exact hout ((encDict_isSome_iff y).mp (Option.ne_none_iff_isSome.mp hsome))
      rw [str2onehot, str2onehotRows_error Y y hy hnone]
  · intro hne hall
    obtain ⟨rs, hrs, hlen⟩ := str2onehotRows_ok Y
      (fun y hy => (encDict_isSome_iff y).mpr (hall y hy))
    cases rs with
    | nil =>
      exfalso
      apply hne
      cases Y with
      | nil => rfl
      | cons y t => simp at hlen
    | cons r rt => exact ⟨r :: rt, by simp [str2onehot, hrs]⟩

/-- Witness for C5 amended: an unknown label triggers the error, and the
in-set input `["skills"]` succeeds. -/
theorem C5_unknown_label_witness :
    (str2onehot ["bogus"] = .error CodecError.unknownLabel ↔
        ∃ y ∈ ["bogus"], y ∉ ENC_LABELS) ∧
      (["skills"] ≠ ([] : List String) → (∀ y ∈ ["skills"], y ∈ ENC_LABELS) →
        ∃ M, str2onehot ["skills"] = .ok M) :=
  ⟨(C5_unknown_label ["bogus"]).1, (C5_unknown_label ["skills"]).2⟩

/-- C6: encoding a label of the fixed set yields one row of 5 columns, with a
single `1.0` at the label's ClassIndex, `0.0` elsewhere, summing to `1.0`. -/
theorem C6_one_hot_shape (L : String) (i : ℕ) (h : encDict L = some i) :
    str2onehot [L] = .ok [oneHotVec i] ∧
      (oneHotVec i).length = 5 ∧
      (oneHotVec i).getD i 0 = 1 ∧
      (∀ j, j < 5 → j ≠ i → (oneHotVec i).getD j 0 = 0) ∧
      (oneHotVec i).sum = 1 := by
  have hi : i < 5 := encDict_lt_five L i h
  refine ⟨by simp [str2onehot, str2onehotRows, h], ?_, ?_, ?_, ?_⟩
  · simp [oneHotVec, ENC_LIST]
  · interval_cases i <;> decide
  · interval_cases i <;> decide
  · interval_cases i <;>
      norm_num [oneHotVec, ENC_LIST, List.set, List.replicate, List.sum_cons]

/-- Witness for C6 at the label "education" with ClassIndex 4. -/
theorem C6_one_hot_shape_witness :
    encDict "education" = some 4 ∧
      (str2onehot ["education"] = .ok [oneHotVec 4] ∧
        (oneHotVec 4).length = 5 ∧
        (oneHotVec 4).getD 4 0 = 1 ∧
        (∀ j, j < 5 → j ≠ 4 → (oneHotVec 4).getD j 0 = 0) ∧
        (oneHotVec 4).sum = 1) :=
  ⟨by decide, C6_one_hot_shape "education" 4 (by decide)⟩

/-! ### Helper lemmas for Python max -/

/-- Strict lower bounds on a running `foldl max`. -/
theorem lt_foldl_max (q : ℚ) (t : List ℚ) :
    ∀ a : ℚ, (q < t.foldl max a ↔ q < a ∨ ∃ x ∈ t, q < x) := by
  induction t with
  | nil => intro a; simp
  | cons b t ih =>
    intro a
    rw [List.foldl_cons, ih (max a b)]
    constructor
    · rintro (h | ⟨x, hx, hq⟩)
      · rcases lt_max_iff.mp h with h1 | h1
        · exact Or.inl h1
        · exact Or.inr ⟨b, List.mem_cons_self b t, h1⟩
      · exact Or.inr ⟨x, List.mem_cons_of_mem b hx, hq⟩
    · rintro (h | ⟨x, hx, hq⟩)
      · exact Or.inl (lt_max_iff.mpr (Or.inl h))
      · rcases List.mem_cons.mp hx with rfl | h2
        · exact Or.inl (lt_max_iff.mpr (Or.inr hq))
        · exact Or.inr ⟨x, h2, hq⟩

/-- A threshold is exceeded by `max(row)` iff some element exceeds it. -/
theorem lt_listMax_iff (l : List ℚ) (m q : ℚ) (h : listMax l = some m) :
    q < m ↔ ∃ x ∈ l, q < x := by
  cases l with
  | nil => cases h
  | cons a t =>
    have hm : m = t.foldl max a := by
      simpa [listMax] using h.symm
    subst hm
    rw [lt_foldl_max q t a]
    constructor
    · rintro (h1 | ⟨x, hx, hq⟩)
      · exact ⟨a, List.mem_cons_self a t, h1⟩
      · exact ⟨x, List.mem_cons_of_mem a hx, hq⟩
    · rintro ⟨x, hx, hq⟩
      rcases List.mem_cons.mp hx with rfl | h2
      · exact Or.inl hq
      · exact Or.inr ⟨x, h2, hq⟩

/-! ### Claim theorems for the confidence annotator -/

/-- C3 counterexample: at the spec's own example row the annotator produces
the string "YES", which is neither boolean rendering — the returned flags are
"YES"/"NO" strings, not booleans. -/
theorem C3_counterexample :
    calculatePredictionConfidence [[0.7, 0.1, 0.1, 0.05, 0.05]] = some ["YES"] ∧
      "YES" ≠ "True" ∧ "YES" ≠ "False" ∧ "YES" ≠ "true" ∧ "YES" ≠ "false" := by
  refine ⟨?_, by decide, by decide, by decide, by decide⟩
  norm_num [calculatePredictionConfidence, listMax, CONFIDENCE_THRESHOLD]

/-- C3 amended: the annotator flags the example rows with the strings "YES"
(max 0.7 exceeds 0.65) and "NO" (max 0.3 does not), rather than booleans. -/
theorem C3_confidence_examples :
    calculatePredictionConfidence
        [[0.7, 0.1, 0.1, 0.05, 0.05], [0.3, 0.3, 0.2, 0.1, 0.1]] = some ["YES", "NO"] := by
  norm_num [calculatePredictionConfidence, listMax, CONFIDENCE_THRESHOLD]

/-- C10: on nonempty rows the annotator returns one string per row, each
either "YES" or "NO", with "YES" exactly when some probability of the row
(equivalently, the row maximum) strictly exceeds 0.65. -/
theorem C10_confidence_strings (pred : List (List ℚ)) (h : ∀ row ∈ pred, row ≠ []) :
    ∃ out, calculatePredictionConfidence pred = some out ∧ out.length = pred.length ∧
      ∀ k row, pred.get? k = some row →
        ((out.get? k = some "YES" ∧ ∃ p ∈ row, CONFIDENCE_THRESHOLD < p) ∨
          (out.get? k = some "NO" ∧ ¬∃ p ∈ row, CONFIDENCE_THRESHOLD < p)) := by
  induction pred with
  | nil =>
    refine ⟨[], rfl, rfl, ?_⟩
    intro k row hk
    simp at hk
  | cons r rest ih =>
    obtain ⟨out, hout, hlen, hprop⟩ :=
      ih (fun row hrow => h row (List.mem_cons_of_mem r hrow))
    cases r with
    | nil => exact absurd rfl (h [] (List.mem_cons_self [] rest))
    | cons a t =>
      have hmax : listMax (a :: t) = some (t.foldl max a) := rfl
      refine ⟨(if CONFIDENCE_THRESHOLD < t.foldl max a then "YES" else "NO") :: out, ?_, ?_, ?_⟩
      · simp only [calculatePredictionConfidence, listMax, hout]
      · simp [hlen]
      · intro k row hk
        cases k with
        | zero =>
          simp only [List.get?_cons_zero, Option.some.injEq] at hk
          subst hk
          by_cases hm : CONFIDENCE_THRESHOLD < t.foldl max a
          · exact Or.inl ⟨by simp [hm],
              (lt_listMax_iff (a :: t) (t.foldl max a) CONFIDENCE_THRESHOLD hmax).mp hm⟩
          · refine Or.inr ⟨by simp [hm], ?_⟩
            intro hex
            exact hm ((lt_listMax_iff (a :: t) (t.foldl max a) CONFIDENCE_THRESHOLD hmax).mpr hex)
        | succ k2 =>
          simp only [List.get?_cons_succ] at hk ⊢
          exact hprop k2 row hk

/-- Witness for C10 at a one-row matrix with maximum 0.7. -/
theorem C10_confidence_strings_witness :
    (∀ row ∈ [[(0.7 : ℚ), 0.1, 0.1, 0.05, 0.05]], row ≠ []) ∧
      (∃ out, calculatePredictionConfidence [[(0.7 : ℚ), 0.1, 0.1, 0.05, 0.05]] = some out ∧
        out.length = [[(0.7 : ℚ), 0.1, 0.1, 0.05, 0.05]].length ∧
        ∀ k row, [[(0.7 : ℚ), 0.1, 0.1, 0.05, 0.05]].get? k = some row →
          ((out.get? k = some "YES" ∧ ∃ p ∈ row, CONFIDENCE_THRESHOLD < p) ∨
            (out.get? k = some "NO" ∧ ¬∃ p ∈ row, CONFIDENCE_THRESHOLD < p))) :=
  ⟨by decide, C10_confidence_strings [[(0.7 : ℚ), 0.1, 0.1, 0.05, 0.05]] (by decide)⟩

/-! ### Claim theorems for the metrics engine: length precondition -/

/-- C4: the metrics engine fails with the length-mismatch error exactly when
the predicted and actual sequences have different lengths, and produces a
report exactly when the lengths agree. -/
theorem C4_length_mismatch (Y_pred Y_true : List String) :
    (calculatePerformanceMetrics Y_pred Y_true = .error MetricsError.lengthMismatch ↔
        Y_pred.length ≠ Y_true.length) ∧
      ((∃ r, calculatePerformanceMetrics Y_pred Y_true = .ok r) ↔
        Y_pred.length = Y_true.length) := by
  by_cases h : Y_pred.length = Y_true.length <;>
    simp [calculatePerformanceMetrics, h]

/-! ### Helper lemmas for counting matches -/

/-- The zipped match count equals the count of matching positions. -/
theorem countMatches_range (Y_true Y_pred : List String) (h : Y_true.length = Y_pred.length) :
    countMatches Y_true Y_pred =
      ((List.range Y_true.length).filter
        (fun i => decide (Y_true.get? i = Y_pred.get? i))).length := by
  induction Y_true generalizing Y_pred with
  | nil =>
    cases Y_pred with
    | nil => rfl
    | cons b s => simp at h
  | cons a t ih =>
    cases Y_pred with
    | nil => simp at h
    | cons b s =>
      have h2 : t.length = s.length := by simpa using h
      have hrec := ih s h2
      have hshift : (List.filter (fun i => decide ((a :: t).get? i = (b :: s).get? i))
          ((List.range t.length).map Nat.succ)).length =
          (List.filter (fun i => decide (t.get? i = s.get? i)) (List.range t.length)).length := by
        rw [List.filter_map, List.length_map]
        have hpt : ∀ i ∈ List.range t.length,
            ((fun i => decide ((a :: t).get? i = (b :: s).get? i)) ∘ Nat.succ) i =
              (fun i => decide (t.get? i = s.get? i)) i := by
          intro i hi
          simp [Function.comp, List.get?_cons_succ]
        rw [List.filter_congr hpt]
      simp only [countMatches, List.zip_cons_cons, List.countP_cons] at hrec ⊢
      rw [hrec]
      simp only [List.length_cons, List.range_succ_eq_map, List.filter_cons]
      by_cases hab : a = b
      · subst hab
        simpa using hshift.symm
      · simpa [hab] using hshift.symm

/-- Every position matches when the two sequences are equal. -/
theorem countMatches_self (l : List String) : countMatches l l = l.length := by
  induction l with
  | nil => rfl
  | cons a t ih =>
    simp only [countMatches] at ih
    simp [countMatches, List.zip_cons_cons, List.countP_cons, ih]

/-! ### Claim theorems for the metrics engine: accuracy and degenerate classes -/

/-- C8: for equal-length nonempty inputs the report's accuracy is the fraction
of positions where prediction and truth coincide, the incorrect count is the
total minus the matches, and on identical sequences accuracy is 1 with 0
incorrect. -/
theorem C8_accuracy (Y_pred Y_true : List String)
    (h1 : Y_pred.length = Y_true.length) (h2 : 0 < Y_true.length) :
    ∃ r, calculatePerformanceMetrics Y_pred Y_true = .ok r ∧
      r.accuracy = (((List.range Y_true.length).filter
          (fun i => decide (Y_true.get? i = Y_pred.get? i))).length : ℚ) /
        (Y_true.length : ℚ) ∧
      r.num_incorrect = Y_true.length - ((List.range Y_true.length).filter
          (fun i => decide (Y_true.get? i = Y_pred.get? i))).length ∧
      (Y_pred = Y_true → (r.accuracy = 1 ∧ r.num_incorrect = 0)) := by
  have hm := countMatches_range Y_true Y_pred h1.symm
  rw [calculatePerformanceMetrics, if_pos h1]
  refine ⟨_, rfl, ?_, ?_, ?_⟩
  · show (countMatches Y_true Y_pred : ℚ) / (Y_true.length : ℚ) = _
    rw [hm]
  · show Y_true.length - countMatches Y_true Y_pred = _
    rw [hm]
  · intro he
    subst he
    constructor
    · show (countMatches Y_pred Y_pred : ℚ) / (Y_pred.length : ℚ) = 1
      rw [countMatches_self]
      exact div_self (ne_of_gt (by exact_mod_cast h2))
    · show Y_pred.length - countMatches Y_pred Y_pred = 0
      rw [countMatches_self, Nat.sub_self]

/-- Witness for C8 on the one-element identical sequences. -/
theorem C8_accuracy_witness :
    (["skills"] : List String).length = (["skills"] : List String).length ∧
      0 < (["skills"] : List String).length ∧
      (∃ r, calculatePerformanceMetrics ["skills"] ["skills"] = .ok r ∧
        r.accuracy = (((List.range (["skills"] : List String).length).filter
            (fun i => decide ((["skills"] : List String).get? i =
              (["skills"] : List String).get? i))).length : ℚ) /
          ((["skills"] : List String).length : ℚ) ∧
        r.num_incorrect = (["skills"] : List String).length -
          ((List.range (["skills"] : List String).length).filter
            (fun i => decide ((["skills"] : List String).get? i =
              (["skills"] : List String).get? i))).length ∧
        ((["skills"] : List String) = ["skills"] →
          (r.accuracy = 1 ∧ r.num_incorrect = 0))) :=
  ⟨rfl, by decide, C8_accuracy ["skills"] ["skills"] rfl (by decide)⟩

/-- C9: for equal-length inputs the report always materialises, carries one
precision/recall/F1 entry per class of the fixed 5-class ordering, and a class
with zero predicted-positives (resp. zero actual-positives) gets precision
(resp. recall) defined as 0, with F1 also 0 when both are absent. -/
theorem C9_defined_zero (Y_pred Y_true : List String)
    (h : Y_pred.length = Y_true.length) :
    ∃ r, calculatePerformanceMetrics Y_pred Y_true = .ok r ∧
      r.metrics.map Prod.fst = CLASSLIST ∧
      ∀ pr ∈ r.metrics,
        (countLabel Y_pred pr.1 = 0 → pr.2.precision = 0) ∧
        (countLabel Y_true pr.1 = 0 → pr.2.recallScore = 0) ∧
        (countLabel Y_pred pr.1 = 0 ∧ countLabel Y_true pr.1 = 0 → pr.2.f1 = 0) := by
  rw [calculatePerformanceMetrics, if_pos h]
  refine ⟨_, rfl, ?_, ?_⟩
  · show (precision_recall_f1 Y_pred Y_true CLASSLIST).map Prod.fst = CLASSLIST
    simp [precision_recall_f1, Function.comp_def]
  · show ∀ pr ∈ precision_recall_f1 Y_pred Y_true CLASSLIST, _
    intro pr hpr
    simp only [precision_recall_f1, List.mem_map] at hpr
    obtain ⟨c, hc, rfl⟩ := hpr
    refine ⟨?_, ?_, ?_⟩
    · intro h0
      simp [classPrecision, h0]
    · intro h0
      simp [classRecall, h0]
    · rintro ⟨hp, ht⟩
      simp [classF1, hp, ht]

/-- Witness for C9 on disjoint one-element sequences, where three classes have
no instances at all. -/
theorem C9_defined_zero_witness :
    (["description"] : List String).length = (["skills"] : List String).length ∧
      (∃ r, calculatePerformanceMetrics ["description"] ["skills"] = .ok r ∧
        r.metrics.map Prod.fst = CLASSLIST ∧
        ∀ pr ∈ r.metrics,
          (countLabel ["description"] pr.1 = 0 → pr.2.precision = 0) ∧
          (countLabel ["skills"] pr.1 = 0 → pr.2.recallScore = 0) ∧
          (countLabel ["description"] pr.1 = 0 ∧ countLabel ["skills"] pr.1 = 0 →
            pr.2.f1 = 0)) :=
  ⟨rfl, C9_defined_zero ["description"] ["skills"] rfl⟩

/-! ### Helper lemmas for argmax -/

/-- A running `foldl max` bounds its seed and every element processed. -/
theorem foldl_max_le (t : List ℚ) :
    ∀ a : ℚ, a ≤ t.foldl max a ∧ ∀ x ∈ t, x ≤ t.foldl max a := by
  induction t with
  | nil =>
    intro a
    exact ⟨le_refl a, by simp⟩
  | cons b t ih =>
    intro a
    rw [List.foldl_cons]
    obtain ⟨h1, h2⟩ := ih (max a b)
    refine ⟨le_trans (le_max_left a b) h1, ?_⟩
    intro x hx
    rcases List.mem_cons.mp hx with rfl | hx2
    · exact le_trans (le_max_right a x) h1
    · exact h2 x hx2

/-- A running `foldl max` is the seed or one of the elements processed. -/
theorem foldl_max_mem (t : List ℚ) : ∀ a : ℚ, t.foldl max a = a ∨ t.foldl max a ∈ t := by
  induction t with
  | nil =>
    intro a
    exact Or.inl rfl
  | cons b t ih =>
    intro a
    rw [List.foldl_cons]
    rcases ih (max a b) with h | h
    · rcases max_choice a b with h2 | h2
      · exact Or.inl (h.trans h2)
      · exact Or.inr (by rw [h, h2]; exact List.mem_cons_self b t)
    · exact Or.inr (List.mem_cons_of_mem b h)

/-- `max(row)` is an element of the row and bounds every element. -/
theorem listMax_spec (l : List ℚ) (m : ℚ) (h : listMax l = some m) :
    m ∈ l ∧ ∀ x ∈ l, x ≤ m := by
  cases l with
  | nil => cases h
  | cons a t =>
    have hm : m = t.foldl max a := by simpa [listMax] using h.symm
    subst hm
    constructor
    · rcases foldl_max_mem t a with h1 | h1
      · rw [h1]
        exact List.mem_cons_self a t
      · exact List.mem_cons_of_mem a h1
    · intro x hx
      rcases List.mem_cons.mp hx with rfl | hx2
      · exact (foldl_max_le t x).1
      · exact (foldl_max_le t a).2 x hx2

/-- The first index of a present element is in bounds. -/
theorem firstIdxOf_lt (m : ℚ) (l : List ℚ) (h : m ∈ l) : firstIdxOf m l < l.length := by
  induction l with
  | nil => cases h
  | cons a t ih =>
    by_cases ha : a = m
    · simp [firstIdxOf, ha]
    · have hm : m ∈ t := by
        rcases List.mem_cons.mp h with h1 | h1
        · exact absurd h1.symm ha
        · exact h1
      simp only [firstIdxOf, if_neg ha, List.length_cons]
      exact Nat.succ_lt_succ (ih hm)

/-- The element at the first index of a present element is that element. -/
theorem getD_firstIdxOf (m : ℚ) (l : List ℚ) (h : m ∈ l) :
    l.getD (firstIdxOf m l) 0 = m := by
  induction l with
  | nil => cases h
  | cons a t ih =>
    by_cases ha : a = m
    · simp [firstIdxOf, ha]
    · have hm : m ∈ t := by
        rcases List.mem_cons.mp h with h1 | h1
        · exact absurd h1.symm ha
        · exact h1
      simp only [firstIdxOf, if_neg ha, List.getD_cons_succ]
      exact ih hm

/-- Every position strictly before the first index of `m` differs from `m`. -/
theorem getD_before_firstIdxOf (m : ℚ) (l : List ℚ) :
    ∀ j, j < firstIdxOf m l → l.getD j 0 ≠ m := by
  induction l with
  | nil =>
    intro j hj
    simp [firstIdxOf] at hj
  | cons a t ih =>
    intro j hj
    by_cases ha : a = m
    · simp [firstIdxOf, ha] at hj
    · simp only [firstIdxOf, if_neg ha] at hj
      cases j with
      | zero => simpa using ha
      | succ j2 =>
        rw [List.getD_cons_succ]
        exact ih j2 (Nat.lt_of_succ_lt_succ hj)

/-- In-bounds `getD` values are members of the list. -/
theorem getD_mem (l : List ℚ) : ∀ j, j < l.length → l.getD j 0 ∈ l := by
  induction l with
  | nil =>
    intro j hj
    simp at hj
  | cons a t ih =>
    intro j hj
    cases j with
    | zero => simp
    | succ j2 =>
      rw [List.getD_cons_succ]
      exact List.mem_cons_of_mem a (ih j2 (by simpa using hj))

/-- The inverse dict succeeds on every index below 5. -/
theorem encDictInv_of_lt_five (i : ℕ) (h : i < 5) : ∃ lab, encDictInv i = some lab := by
  interval_cases i <;> exact ⟨_, rfl⟩

/-! ### Claim theorem for the single-label decoder -/

/-- C7: on rows of width 5 the decoder returns exactly one label per row, and
each row's label is the one at the ClassIndex holding the row's maximum, ties
broken by the lowest index. -/
theorem C7_decode_argmax (P : List (List ℚ)) (hP : ∀ row ∈ P, row.length = 5) :
    ∃ res, onehot2str P = some res ∧ res.length = P.length ∧
      ∀ k row, P.get? k = some row → ∃ i lab,
        i < row.length ∧
        (∀ j, j < row.length → row.getD j 0 ≤ row.getD i 0) ∧
        (∀ j, j < i → row.getD j 0 < row.getD i 0) ∧
        encDictInv i = some lab ∧ res.get? k = some lab := by
  induction P with
  | nil =>
    refine ⟨[], rfl, rfl, ?_⟩
    intro k row hk
    simp at hk
  | cons row rest ih =>
    obtain ⟨res, hres, hlen, hprop⟩ := ih (fun r hr => hP r (List.mem_cons_of_mem row hr))
    have hrow5 : row.length = 5 := hP row (List.mem_cons_self row rest)
    cases row with
    | nil => simp at hrow5
    | cons a t =>
      obtain ⟨m, hmax⟩ : ∃ m, listMax (a :: t) = some m := ⟨_, rfl⟩
      have hargmax : argmaxIdx (a :: t) = some (firstIdxOf m (a :: t)) := by
        simp [argmaxIdx, hmax]
      obtain ⟨hmem, hle⟩ := listMax_spec (a :: t) m hmax
      have hilt : firstIdxOf m (a :: t) < (a :: t).length := firstIdxOf_lt m (a :: t) hmem
      have hilt5 : firstIdxOf m (a :: t) < 5 := by
        rw [← hrow5]
        exact hilt
      obtain ⟨lab, hlab⟩ := encDictInv_of_lt_five _ hilt5
      refine ⟨lab :: res, ?_, by simp [hlen], ?_⟩
      · simp only [onehot2str, hargmax, hlab, hres]
      · intro k r hk
        cases k with
        | zero =>
          simp only [List.get?_cons_zero, Option.some.injEq] at hk
          subst hk
          refine ⟨firstIdxOf m (a :: t), lab, hilt, ?_, ?_, hlab, by simp⟩
          · intro j hj
            rw [getD_firstIdxOf m (a :: t) hmem]
            exact hle _ (getD_mem (a :: t) j hj)
          · intro j hj
            rw [getD_firstIdxOf m (a :: t) hmem]
            have h1 : (a :: t).getD j 0 ≤ m :=
              hle _ (getD_mem (a :: t) j (lt_trans hj hilt))
            have h2 : (a :: t).getD j 0 ≠ m := getD_before_firstIdxOf m (a :: t) j hj
            exact lt_of_le_of_ne h1 h2
        | succ k2 =>
          simp only [List.get?_cons_succ] at hk ⊢
          exact hprop k2 r hk

/-- Witness for C7 on a one-row matrix whose maximum sits at ClassIndex 2. -/
theorem C7_decode_argmax_witness :
    (∀ row ∈ [[(0 : ℚ), 0, 1, 0, 0]], row.length = 5) ∧
      (∃ res, onehot2str [[(0 : ℚ), 0, 1, 0, 0]] = some res ∧
        res.length = [[(0 : ℚ), 0, 1, 0, 0]].length ∧
        ∀ k row, [[(0 : ℚ), 0, 1, 0, 0]].get? k = some row → ∃ i lab,
          i < row.length ∧
          (∀ j, j < row.length → row.getD j 0 ≤ row.getD i 0) ∧
          (∀ j, j < i → row.getD j 0 < row.getD i 0) ∧
          encDictInv i = some lab ∧ res.get? k = some lab) :=
  ⟨by decide, C7_decode_argmax [[(0 : ℚ), 0, 1, 0, 0]] (by decide)⟩

/-! ### Helper lemmas for the multi-bucket decoder -/

/-- On a width-5 row, building the class string and stripping the trailing
two characters is the comma-separated join of the selected labels. -/
theorem buildClasses_map_row5 (row : List ℚ) (h : row.length = 5) :
    (buildClasses 0 row).map (fun cl => cl.dropLast.dropLast) =
      some (joinCommaSep (selectedLabels row)) := by
  obtain ⟨a, b, c, d, e, rfl⟩ : ∃ a b c d e, row = [a, b, c, d, e] := by
    rcases row with _ | ⟨a, _ | ⟨b, _ | ⟨c, _ | ⟨d, _ | ⟨e, _ | ⟨f, t⟩⟩⟩⟩⟩⟩ <;> simp at h
    exact ⟨a, b, c, d, e, rfl⟩
  have e0 : encDictInv 0 = some "others" := rfl
  have e1 : encDictInv 1 = some "description" := rfl
  have e2 : encDictInv 2 = some "skills" := rfl
  have e3 : encDictInv 3 = some "job_title" := rfl
  have e4 : encDictInv 4 = some "education" := rfl
  simp only [buildClasses, Nat.reduceAdd, e0, e1, e2, e3, e4, selectedLabels,
    ENC_LABELS, ENC_LIST, List.map_cons, List.map_nil, List.zip_cons_cons,
    List.zip_nil_right, List.zip_nil_left, List.filter_cons, List.filter_nil,
    decide_eq_true_eq]
  split_ifs <;> rfl

/-- General form of the C2 claim, by recursion over the rows. -/
theorem prob2str_multibucket_spec : ∀ (probs : List (List ℚ)) (sens : List String),
    (∀ row ∈ probs, row.length = 5) → sens.length = probs.length →
    prob2str_multibucket probs sens =
      some (probs.map (fun row => joinCommaSep (selectedLabels row)), sens)
  | [], [], _, _ => rfl
  | [], _ :: _, _, hlen => by simp at hlen
  | _ :: _, [], _, hlen => by simp at hlen
  | p :: ps, s :: ss, h5, hlen => by
    have h1 := buildClasses_map_row5 p (h5 p (List.mem_cons_self p ps))
    obtain ⟨cl, hcl, hdrop⟩ := Option.map_eq_some'.mp h1
    have h2 := prob2str_multibucket_spec ps ss
      (fun r hr => h5 r (List.mem_cons_of_mem p hr)) (by simpa using hlen)
    simp only [prob2str_multibucket, hcl, h2, List.map_cons]
    rw [hdrop]

/-! ### Claim theorem for the multi-bucket decoder -/

/-- C2: on width-5 rows, each output entry is the comma-separated string of
exactly the labels whose probability is at or above the threshold, in fixed
ClassIndex order with no trailing separator; a row selecting nothing yields
the empty string. -/
theorem C2_multibucket (probs : List (List ℚ)) (sens : List String)
    (h5 : ∀ row ∈ probs, row.length = 5) (hlen : sens.length = probs.length) :
    prob2str_multibucket probs sens =
      some (probs.map (fun row => joinCommaSep (selectedLabels row)), sens) :=
  prob2str_multibucket_spec probs sens h5 hlen

/-- Witness for C2 on one row selecting the labels at indices 0 and 2. -/
theorem C2_multibucket_witness :
    (∀ row ∈ [[(0.5 : ℚ), 0.1, 0.3, 0, 0.05]], row.length = 5) ∧
      (["sentence"] : List String).length = [[(0.5 : ℚ), 0.1, 0.3, 0, 0.05]].length ∧
      prob2str_multibucket [[(0.5 : ℚ), 0.1, 0.3, 0, 0.05]] ["sentence"] =
        some ([[(0.5 : ℚ), 0.1, 0.3, 0, 0.05]].map
          (fun row => joinCommaSep (selectedLabels row)), ["sentence"]) :=
  ⟨by decide, rfl,
    C2_multibucket [[(0.5 : ℚ), 0.1, 0.3, 0, 0.05]] ["sentence"] (by decide) rfl⟩
